import Mathlib

/-!
# Water-sort puzzle: a shallow embedding of the core model

This file embeds the core of the `water-sort-puzzle` repository in Lean 4 and
proves (or refutes) the specification's claims about it.

Conventions of the embedding:
* `Color` is `String`, exactly as in `types/puzzle-types.ts`.
* A vial's `segments` list is in array order: index 0 is the bottom of the
  vial, the last element is the top (as in the TypeScript arrays).
* A thrown `TypeError` (from `assertDefined`) is modelled as `Except.error`.
* JavaScript `Set<string>` membership is modelled by a `List String` with
  `contains`; only membership is ever used by the code.
* Numbers that the code keeps integral are `Nat`/`Int`; numbers that can be
  fractional (entropy weights, the PRNG output) are `ℚ`.
-/

namespace WaterSort

abbrev Color := String

/-- `vial.ts`: a vial is a stack of color segments with a capacity. -/
structure Vial where
  segments : List Color
  capacity : Nat
deriving Repr, DecidableEq

namespace Vial

/-- `Vial.isEmpty`. -/
def isEmpty (v : Vial) : Bool :=
  v.segments.length == 0

/-- `Vial.isFull`. -/
def isFull (v : Vial) : Bool :=
  v.segments.length == v.capacity

/-- `Vial.isComplete`: empty, or full with every segment equal to the first.
The source throws on a full vial with `segments[0] === undefined`, which is
unreachable; the `[]` branch of the inner match is that dead branch. -/
def isComplete (v : Vial) : Bool :=
  if v.isEmpty then true
  else if !v.isFull then false
  else
    match v.segments with
    | [] => false
    | c :: rest => (c :: rest).all (fun s => s == c)

/-- `Vial.getTopColor`: `null` when empty, else the last segment. -/
def getTopColor (v : Vial) : Option Color :=
  if v.isEmpty then none else v.segments.getLast?

/-- `Vial.canReceive`: not full, and (empty or top color equals `c`). -/
def canReceive (v : Vial) (c : Color) : Bool :=
  !v.isFull && (v.isEmpty || v.getTopColor == some c)

end Vial

/-- `types/puzzle-types.ts`: a move references vials by index. -/
structure Move where
  sourceVialIndex : Nat
  targetVialIndex : Nat
  colorsToPour : Nat
deriving Repr, DecidableEq

/-- `puzzle-utils.ts` `countTopSegmentsOfSameColor`: walk from the top
(the end of the array) downward, counting while the color matches. -/
def countTopSegmentsOfSameColor (v : Vial) (c : Color) : Nat :=
  (v.segments.reverse.takeWhile (fun s => s == c)).length

/-- `game-state.ts`: vials plus counts.  The constructor always sets
`totalVials = vials.length`, so `totalVials` is modelled as a derived
function below rather than a stored field. -/
structure GameState where
  vials : List Vial
  colorCount : Nat
  emptyVialCount : Nat
deriving Repr, DecidableEq

namespace GameState

/-- `totalVials`, established by the constructor as `vials.length` and kept
in sync by every code path that modifies `vials`. -/
def totalVials (s : GameState) : Nat := s.vials.length

/-- `GameState.isComplete`. -/
def isComplete (s : GameState) : Bool :=
  s.vials.all Vial.isComplete

/-- `GameState.getAvailableMoves`: for each source index `i` (skipping empty
sources), for each target index `j ≠ i` whose vial can receive the source's
top color, emit a move pouring `min(run length, remaining capacity)` when
positive.  The `assertDefined` calls cannot fire (`i, j < totalVials =
vials.length`); the `none` branches are those dead branches. -/
def getAvailableMoves (s : GameState) : List Move :=
  (List.range s.totalVials).flatMap (fun i =>
    match s.vials[i]? with
    | none => []
    | some sourceVial =>
      if sourceVial.isEmpty then []
      else
        match sourceVial.getTopColor with
        | none => []
        | some topColor =>
          (List.range s.totalVials).filterMap (fun j =>
            if i = j then none
            else
              match s.vials[j]? with
              | none => none
              | some targetVial =>
                if targetVial.canReceive topColor then
                  let colorsToPour := countTopSegmentsOfSameColor sourceVial topColor
                  let maxPour :=
                    min colorsToPour (targetVial.capacity - targetVial.segments.length)
                  if maxPour > 0 then
                    some ⟨i, j, maxPour⟩
                  else none
                else none))

/-- `GameState.applyMove`:
clone the state, `assertDefined` both vials (a thrown `TypeError` is
`Except.error`), return the untouched clone when the source is empty, else
pop `colorsToPour` segments off the source (popping an empty array is a
no-op, hence `take (length - n)`) and push that many copies of the top color
onto the target.  The target is read after the source was updated, so the
source-equals-target aliasing of the TypeScript objects is preserved. -/
def applyMove (s : GameState) (m : Move) : Except String GameState :=
  if h1 : m.sourceVialIndex < s.vials.length then
    if h2 : m.targetVialIndex < s.vials.length then
      let sourceVial := s.vials.get ⟨m.sourceVialIndex, h1⟩
      match sourceVial.getTopColor with
      | none => .ok s
      | some colorToPour =>
        let afterPop := s.vials.set m.sourceVialIndex
          { sourceVial with
            segments :=
              sourceVial.segments.take (sourceVial.segments.length - m.colorsToPour) }
        let targetVial := afterPop.get
          ⟨m.targetVialIndex, by simp only [afterPop, List.length_set]; exact h2⟩
        let afterPush := afterPop.set m.targetVialIndex
          { targetVial with
            segments := targetVial.segments ++ List.replicate m.colorsToPour colorToPour }
        .ok { s with vials := afterPush }
    else
      .error ("Expected target vial at index " ++ toString m.targetVialIndex ++ ".")
  else
    .error ("Expected source vial at index " ++ toString m.sourceVialIndex ++ ".")

/-- `Array.prototype.join(sep)` for an array of strings. -/
def joinSep (sep : String) : List String → String
  | [] => ""
  | [x] => x
  | x :: y :: rest => x ++ sep ++ joinSep sep (y :: rest)

/-- `GameState.getStateHash`: `segments.join(",")` per vial, joined by `"|"`. -/
def getStateHash (s : GameState) : String :=
  joinSep "|" (s.vials.map (fun v => joinSep "," v.segments))

end GameState

/-! ## Heuristics (`puzzle-utils.ts`) -/

/-- `wouldCompleteVial`: the move empties its source, or fills the target to
capacity with a single color.  `new Set([...target.segments, topColor]).size
=== 1` holds exactly when every target segment equals `topColor`. -/
def wouldCompleteVial (s : GameState) (m : Move) : Bool :=
  match s.vials[m.sourceVialIndex]?, s.vials[m.targetVialIndex]? with
  | some sourceVial, some targetVial =>
    match sourceVial.getTopColor with
    | none => false
    | some topColor =>
      if sourceVial.segments.length == m.colorsToPour then true
      else if targetVial.segments.length + m.colorsToPour == targetVial.capacity then
        if targetVial.isEmpty && m.colorsToPour == targetVial.capacity then true
        else targetVial.segments.all (fun seg => seg == topColor)
      else false
  | _, _ => false

/-- The number of vials whose segment set (after `filter(Boolean)`, which
drops empty strings) contains `c`.  This is the per-color count built by the
`colorCounts` / `colorDistribution` maps in `prioritizeMoves` and
`calculateEntropy`. -/
def vialsContaining (s : GameState) (c : Color) : Nat :=
  (s.vials.filter (fun v => decide (c ≠ "") && v.segments.contains c)).length

/-- The score `prioritizeMoves` assigns to one move. -/
def scoreMove (s : GameState) (m : Move) : Int :=
  match s.vials[m.sourceVialIndex]?, s.vials[m.targetVialIndex]? with
  | some sourceVial, some targetVial =>
    let completeBonus : Int := if wouldCompleteVial s m then 100 else 0
    let consolidateBonus : Int :=
      if !targetVial.isEmpty
          && targetVial.getTopColor.isSome && sourceVial.getTopColor.isSome
          && targetVial.getTopColor == sourceVial.getTopColor then 50 else 0
    let spreadBonus : Int :=
      match sourceVial.getTopColor with
      | none => 0
      | some c =>
        let colorCount := vialsContaining s c
        if colorCount > 1 then 20 * ((colorCount : Int) - 1) else 0
    completeBonus + consolidateBonus + spreadBonus
  | _, _ => -999

/-- `prioritizeMoves`: stable sort by score, higher first. -/
def prioritizeMoves (moves : List Move) (s : GameState) : List Move :=
  moves.mergeSort (fun a b => scoreMove s b ≤ scoreMove s a)

/-- The indices `i ≥ 1` at which `calculateEntropy` sees a color change:
`segments[i]` and `segments[i-1]` both truthy and different.  The source
computes this condition twice (plain count and position-weighted count) over
the same loop range. -/
def changeIndices (v : Vial) : List Nat :=
  (List.range v.segments.length).filter (fun i =>
    decide (1 ≤ i) &&
      match v.segments[i]?, v.segments[i-1]? with
      | some current, some previous =>
        decide (current ≠ "") && decide (previous ≠ "") && decide (current ≠ previous)
      | _, _ => false)

/-- `calculateEntropy`: per vial (skipping vials with at most one segment)
the number of adjacent color changes plus each change's index times `0.5`,
plus `(count - 1) * 2` for every color occurring in more than one vial. -/
def calculateEntropy (s : GameState) : ℚ :=
  let perVial : ℚ :=
    (s.vials.map (fun v =>
      if v.segments.length ≤ 1 then (0 : ℚ)
      else ((changeIndices v).length : ℚ) +
        ((changeIndices v).map (fun i : Nat => (i : ℚ) * (1/2))).sum)).sum
  let distinctColors :=
    (s.vials.flatMap (fun v => v.segments.filter (fun c => c ≠ ""))).dedup
  let distributionEntropy : ℚ :=
    (distinctColors.map (fun c =>
      let count := vialsContaining s c
      if count > 1 then ((count : ℚ) - 1) * 2 else 0)).sum
  perVial + distributionEntropy

/-! ## The BFS solver (`puzzle-solver.ts`) -/

/-- The record returned by `solvePuzzle`. -/
structure SolveResult where
  solved : Bool
  path : Option (List Move)
  timedOut : Bool
deriving Repr, DecidableEq

/-- One entry of the BFS queue. -/
structure QueueEntry where
  state : GameState
  path : List Move
  lastMove : Option Move
deriving Repr, DecidableEq

/-- The per-move pruning filter of the solver loop (`effectiveMoves`). -/
def keepMove (state : GameState) (lastMove : Option Move) (m : Move) : Bool :=
  match state.vials[m.sourceVialIndex]?, state.vials[m.targetVialIndex]? with
  | some sourceVial, some targetVial =>
    if sourceVial.isEmpty then false
    else if targetVial.isEmpty
        && (List.range m.targetVialIndex).any (fun i =>
              match state.vials[i]? with
              | some vial => vial.isEmpty
              | none => false) then false
    else if match lastMove with
            | some lm => m.sourceVialIndex == lm.targetVialIndex
                && m.targetVialIndex == lm.sourceVialIndex
            | none => false then false
    else if match lastMove with
            | some lm => m.sourceVialIndex == lm.targetVialIndex
                && sourceVial.segments.length > 1
                && !wouldCompleteVial state m
            | none => false then false
    else true
  | _, _ => false

/-- The enqueue loop at the bottom of each BFS iteration: apply each move,
skip already-visited hashes, append fresh successor entries at the back of
the queue.  A thrown `TypeError` inside `applyMove` propagates. -/
def processMoves (state : GameState) (path : List Move) :
    List Move → List String → List QueueEntry →
    Except String (List String × List QueueEntry)
  | [], visited, queue => .ok (visited, queue)
  | m :: rest, visited, queue =>
    match state.applyMove m with
    | .error e => .error e
    | .ok newState =>
      let stateHash := newState.getStateHash
      if visited.contains stateHash then
        processMoves state path rest visited queue
      else
        processMoves state path rest (stateHash :: visited)
          (queue ++ [⟨newState, path ++ [m], some m⟩])

/-- The solver's `while` loop.  `fuel` is `maxSteps - statesExplored`, so the
loop condition `statesExplored < maxSteps` is `fuel > 0`; when the loop exits
the returned `timedOut` field is `statesExplored >= maxSteps`, i.e. whether
the fuel ran out.  `timeoutHit n` models `Date.now() - startTime > timeoutMs`
observed at the iteration in which `statesExplored = n`. -/
def solveLoop (timeoutHit : Nat → Bool) :
    Nat → Nat → List QueueEntry → List String → Except String SolveResult
  | 0, _, _, _ => .ok ⟨false, none, true⟩
  | _ + 1, _, [], _ => .ok ⟨false, none, false⟩
  | fuel + 1, statesExplored, current :: rest, visited =>
    if timeoutHit statesExplored then .ok ⟨false, none, true⟩
    else if current.state.isComplete then .ok ⟨true, some current.path, false⟩
    else
      let moves := current.state.getAvailableMoves
      let effectiveMoves := moves.filter (keepMove current.state current.lastMove)
      let prioritizedMoves := prioritizeMoves effectiveMoves current.state
      match processMoves current.state current.path prioritizedMoves visited rest with
      | .error e => .error e
      | .ok (visited', queue') =>
        solveLoop timeoutHit fuel (statesExplored + 1) queue' visited'

/-- `solvePuzzle`: BFS from `initialState` with the visited set seeded with
the initial hash.  `maxSteps : Int` so that non-positive budgets are
representable; the loop runs at most `maxSteps.toNat` iterations. -/
def solvePuzzle (timeoutHit : Nat → Bool) (initialState : GameState)
    (maxSteps : Int) : Except String SolveResult :=
  solveLoop timeoutHit maxSteps.toNat 0
    [⟨initialState, [], none⟩] [initialState.getStateHash]

/-! ## Derived notions used by the theorems -/

/-- Replaying a move list through `applyMove`, propagating a thrown error. -/
def applyPath (s : GameState) : List Move → Except String GameState
  | [] => .ok s
  | m :: rest =>
    match s.applyMove m with
    | .error e => .error e
    | .ok s' => applyPath s' rest

/-- Every move of the path is drawn from `getAvailableMoves` of the state it
is applied to, and each application succeeds. -/
def ValidPath (s : GameState) : List Move → Prop
  | [] => True
  | m :: rest => m ∈ s.getAvailableMoves ∧
      ∃ s', s.applyMove m = .ok s' ∧ ValidPath s' rest

/-- The invariant of a BFS queue entry: its path is valid from the initial
state and replays to its state. -/
def EntryInv (init : GameState) (e : QueueEntry) : Prop :=
  ValidPath init e.path ∧ applyPath init e.path = .ok e.state

/-- Total number of segments of color `c` across all vials. -/
def colorTotal (s : GameState) (c : Color) : Nat :=
  (s.vials.map (fun v => v.segments.count c)).sum

/-- The specification's description of `getAvailableMoves` (spec §4.2),
written from the spec's words for comparison with the source embedding:
for every ordered pair `(i, j)` in row-major order, `i ≠ j`, vial `i`
non-empty and vial `j` able to receive vial `i`'s top color, a move pouring
`min(contiguous same-color run at top of i, capacity − len(j))`, emitted
only when that minimum is positive. -/
def specAvailableMoves (s : GameState) : List Move :=
  ((List.range s.totalVials).flatMap (fun i =>
      (List.range s.totalVials).map (fun j => (i, j)))).filterMap
    (fun p =>
      if p.1 = p.2 then none
      else
        match s.vials[p.1]?, s.vials[p.2]? with
        | some vi, some vj =>
          if vi.segments.isEmpty then none
          else
            match vi.segments.getLast? with
            | none => none
            | some topColor =>
              if vj.canReceive topColor then
                let pour := min (countTopSegmentsOfSameColor vi topColor)
                  (vj.capacity - vj.segments.length)
                if 0 < pour then some ⟨p.1, p.2, pour⟩ else none
              else none
        | _, _ => none)

/-- A color that cannot collide with the hash's separators: a nonempty
string containing neither `','` nor `'|'` (all palette colors qualify). -/
def SepFreeColor (c : Color) : Prop :=
  c ≠ "" ∧ ',' ∉ c.data ∧ '|' ∉ c.data

/-- All segments of all vials of a state are separator-free colors. -/
def SepFreeState (s : GameState) : Prop :=
  ∀ v ∈ s.vials, ∀ c ∈ v.segments, SepFreeColor c

/-- `Array.join` at the character level, for reasoning about `getStateHash`. -/
def charJoin (sep : Char) : List (List Char) → List Char
  | [] => []
  | [x] => x
  | x :: y :: rest => x ++ sep :: charJoin sep (y :: rest)

end WaterSort

namespace WaterSort.Gen

/-!
## The reverse-construction generator (`scripts/generate.ts`)

This script uses its own plain-array representation: a vial is a
`string[]`, a state is a `Vial[]`, and every pour moves exactly one
segment.
-/

/-- `scripts/generate.ts` `Vial`: an array of color strings, index 0 at the
bottom, last element on top. -/
abbrev GVial := List String

def VIAL_CAPACITY : Nat := 4
def NUMBER_OF_COLORS : Nat := 4
def EMPTY_VIALS : Nat := 2
def COLORS : List String := ["red", "blue", "green", "yellow"]

/-- `scripts/generate.ts` `MoveStep`. -/
structure MoveStep where
  fromVialIndex : Nat
  toVialIndex : Nat
deriving Repr, DecidableEq

/-- `isLegalMove`: source non-empty, target below capacity, and target empty
or with a matching top color. -/
def isLegalMove (fromV toV : GVial) : Bool :=
  if fromV.length == 0 || decide (toV.length ≥ VIAL_CAPACITY) then false
  else if toV.length == 0 then true
  else toV.getLast? == fromV.getLast?

/-- `performMove`: if the move is legal, pop the top segment of the source
and push it onto the target, returning `true`; otherwise leave the state
untouched and return `false`.  All call sites index within bounds
(`randomInt(0, vials.length - 1)`), so the out-of-range `getD` default never
materialises; the `none` branch of the match is likewise unreachable
(a legal source is non-empty). -/
def performMove (vials : List GVial) (fromIndex toIndex : Nat) :
    List GVial × Bool :=
  let fromV := vials.getD fromIndex []
  let toV := vials.getD toIndex []
  if isLegalMove fromV toV then
    match fromV.getLast? with
    | some color =>
      let afterPop := vials.set fromIndex fromV.dropLast
      (afterPop.set toIndex (afterPop.getD toIndex [] ++ [color]), true)
    | none => (vials, true)
  else (vials, false)

/-- `isFullySorted`: at capacity and a single distinct color
(`new Set(vial).size === 1`). -/
def isFullySorted (v : GVial) : Bool :=
  v.length == VIAL_CAPACITY && v.dedup.length == 1

/-- The solved configuration `generateSolvablePuzzle` starts from:
`NUMBER_OF_COLORS` vials filled to capacity with one color each, then
`EMPTY_VIALS` empty vials. -/
def initialVials : List GVial :=
  (List.range NUMBER_OF_COLORS).map
      (fun i => List.replicate VIAL_CAPACITY (COLORS.getD i "")) ++
    List.replicate EMPTY_VIALS []

/-- The shuffle loop's recorded runs: each recorded step was applied by
`performMove` with in-range indices, succeeded, and changed the state
(`success && stateBefore !== stateAfter`).  The loop's further restrictions
(distinct indices, no immediate undo) only make fewer runs possible. -/
inductive ShuffleRun : List GVial → List MoveStep → List GVial → Prop
  | nil (vs : List GVial) : ShuffleRun vs [] vs
  | cons {vs vs' vs'' : List GVial} {m : MoveStep} {steps : List MoveStep} :
      m.fromVialIndex < vs.length →
      m.toVialIndex < vs.length →
      performMove vs m.fromVialIndex m.toVialIndex = (vs', true) →
      vs' ≠ vs →
      ShuffleRun vs' steps vs'' →
      ShuffleRun vs (m :: steps) vs''

/-- `solveSteps`: the shuffle steps reversed, with source and target
swapped per move. -/
def solveSteps (steps : List MoveStep) : List MoveStep :=
  steps.reverse.map (fun m => ⟨m.toVialIndex, m.fromVialIndex⟩)

/-- Applying a list of move steps in order via `performMove` (an illegal
step leaves the state unchanged, exactly as `performMove` does). -/
def applySteps (vials : List GVial) : List MoveStep → List GVial
  | [] => vials
  | m :: rest => applySteps (performMove vials m.fromVialIndex m.toVialIndex).1 rest

/-- A vial whose segments are all equal (possibly empty). -/
def Mono (v : GVial) : Prop := ∀ a ∈ v, ∀ b ∈ v, a = b

/-- The generator's states: every vial monochrome and within capacity. -/
def GoodVials (vs : List GVial) : Prop :=
  ∀ v ∈ vs, Mono v ∧ v.length ≤ VIAL_CAPACITY

/-- The claim's completion notion for the generated record: every vial
empty, or full of a single color. -/
def allVialsComplete (vs : List GVial) : Prop :=
  ∀ v ∈ vs, v = [] ∨ isFullySorted v = true

end WaterSort.Gen

namespace WaterSort

/-!
## The seeded PRNG (`seeded-random.ts`)

The internal seed is an integer (numeric seeds are taken integral, string
seeds are folded to a 32-bit signed integer); `next` produces a rational in
the idealized real-number semantics of the JavaScript operations, which are
exact at these magnitudes except for the final division, whose sign and
bounds are unaffected by rounding.
-/

/-- JavaScript `| 0`: wrap to a 32-bit signed integer. -/
def int32wrap (x : Int) : Int := (x + 2 ^ 31) % 2 ^ 32 - 2 ^ 31

/-- `SeededRandom`'s internal state. -/
structure SeededRandom where
  seed : Int
deriving Repr, DecidableEq

/-- Constructing from a numeric seed stores it directly. -/
def SeededRandom.ofInt (n : Int) : SeededRandom := ⟨n⟩

/-- Constructing from a string seed folds `hash = (hash << 5) - hash +
charCode`, wrapping to 32 bits (the `<< 5` itself is a 32-bit operation,
and `|= 0` wraps the sum). -/
def SeededRandom.ofString (s : String) : SeededRandom :=
  ⟨s.data.foldl (fun hash c => int32wrap (int32wrap (hash * 32) - hash + c.toNat)) 0⟩

/-- `next()`: advance the LCG (`%` is JavaScript's truncated remainder,
`Int.tmod`) and return `seed / 2147483647`. -/
def SeededRandom.next (r : SeededRandom) : SeededRandom × ℚ :=
  let seed := (r.seed * 16807).tmod 2147483647
  (⟨seed⟩, (seed : ℚ) / 2147483647)

/-- `nextInt(min, max)`: `Math.floor(next() * (max - min)) + min`. -/
def SeededRandom.nextInt (r : SeededRandom) (min max : Int) :
    SeededRandom × Int :=
  let step := r.next
  (step.1, ⌊step.2 * ((max : ℚ) - (min : ℚ))⌋ + min)

/-- The generator state after `k` calls to `next()`. -/
def SeededRandom.iterate (r : SeededRandom) : Nat → SeededRandom
  | 0 => r
  | k + 1 => (r.iterate k).next.1

/-!
## A heap model for clone/mutation aliasing (`GameState.clone`,
`Vial.clone`, `GameState.applyMove`)

To state that `applyMove` never mutates its receiver and that the returned
state shares no segment array with it, vial segment arrays are given
explicit addresses into a heap; `Vial.clone` allocates a fresh array each
time, exactly as `new Vial` + array spread does.
-/

/-- The heap: address `a` holds the segment array of one `Vial` object. -/
abbrev Heap := List (List Color)

/-- A `Vial` object: an address of its segments array plus its capacity. -/
structure VialRef where
  arr : Nat
  capacity : Nat
deriving Repr, DecidableEq

/-- A `GameState` object whose vials are references. -/
structure StateRef where
  vials : List VialRef
  colorCount : Nat
  emptyVialCount : Nat
deriving Repr, DecidableEq

/-- Well-formed: every vial's array address is allocated. -/
def WFRef (h : Heap) (s : StateRef) : Prop :=
  ∀ vr ∈ s.vials, vr.arr < h.length

/-- `GameState.clone`: `vials.map(v => v.clone())` — each `Vial.clone`
allocates a fresh array holding a copy of the segments (`[...segments]`);
counts are copied by value.  Vial `i` of the clone gets the fresh address
`h.length + i`. -/
def cloneStateRef (h : Heap) (s : StateRef) : Heap × StateRef :=
  (h ++ s.vials.map (fun vr => h.getD vr.arr []),
   ⟨s.vials.enum.map (fun p => ⟨h.length + p.1, p.2.capacity⟩),
    s.colorCount, s.emptyVialCount⟩)

/-- `GameState.applyMove` in the heap model: clone, then mutate only the
clone's arrays (pop `colorsToPour` segments from the source array, push
that many copies of the top color onto the target array, reading the
target after the source update so that aliasing is honoured). -/
def applyMoveRef (h : Heap) (s : StateRef) (m : Move) :
    Except String (Heap × StateRef) :=
  let cloned := cloneStateRef h s
  let h1 := cloned.1
  let s1 := cloned.2
  match s1.vials[m.sourceVialIndex]? with
  | none => .error ("Expected source vial at index " ++ toString m.sourceVialIndex ++ ".")
  | some srcRef =>
    match s1.vials[m.targetVialIndex]? with
    | none => .error ("Expected target vial at index " ++ toString m.targetVialIndex ++ ".")
    | some tgtRef =>
      let srcSegs := h1.getD srcRef.arr []
      match srcSegs.getLast? with
      | none => .ok (h1, s1)
      | some colorToPour =>
        let h2 := h1.set srcRef.arr
          (srcSegs.take (srcSegs.length - m.colorsToPour))
        let tgtSegs := h2.getD tgtRef.arr []
        let h3 := h2.set tgtRef.arr
          (tgtSegs ++ List.replicate m.colorsToPour colorToPour)
        .ok (h3, s1)

/-- Reading a state's segment arrays out of the heap. -/
def derefState (h : Heap) (s : StateRef) : List (List Color) :=
  s.vials.map (fun vr => h.getD vr.arr [])

end WaterSort

namespace WaterSort

/-! # Theorems -/

/-- An empty vial has no top color. -/
theorem getTopColor_of_isEmpty {v : Vial} (h : v.isEmpty = true) :
    v.getTopColor = none := by
  simp [Vial.getTopColor, h]

/-- C3, counterexample: on a state with a single vial, `applyMove` with the
out-of-range source index 1 throws (`Except.error`), rather than returning
the unmodified clone claimed. -/
theorem applyMove_out_of_range_counterexample :
    (⟨[⟨[], 4⟩], 0, 1⟩ : GameState).applyMove ⟨1, 0, 1⟩ =
      .error "Expected source vial at index 1." ∧
    ∀ s' : GameState,
      (⟨[⟨[], 4⟩], 0, 1⟩ : GameState).applyMove ⟨1, 0, 1⟩ ≠ .ok s' := by
  exact ⟨rfl, fun s' h => by simp [GameState.applyMove] at h⟩

/-- C3, amended: with both indices in range and an empty source vial,
`applyMove` returns the unmodified clone; with either index out of range it
throws a `TypeError` (modelled as `Except.error`). -/
theorem applyMove_empty_source_noop_out_of_range_throws
    (s : GameState) (m : Move) :
    (∀ hs : m.sourceVialIndex < s.vials.length,
      m.targetVialIndex < s.vials.length →
      (s.vials.get ⟨m.sourceVialIndex, hs⟩).isEmpty = true →
      s.applyMove m = .ok s) ∧
    (s.vials.length ≤ m.sourceVialIndex ∨ s.vials.length ≤ m.targetVialIndex →
      ∃ msg, s.applyMove m = .error msg) := by
  constructor
  · intro hs ht he
    have htop := getTopColor_of_isEmpty he
    rw [List.get_eq_getElem] at htop
    simp [GameState.applyMove, hs, ht, htop]
  · intro h
    unfold GameState.applyMove
    by_cases hs : m.sourceVialIndex < s.vials.length
    · have ht : ¬ m.targetVialIndex < s.vials.length := by omega
      rw [dif_pos hs, dif_neg ht]
      exact ⟨_, rfl⟩
    · rw [dif_neg hs]
      exact ⟨_, rfl⟩

/-- C3, witness for the amended theorem at concrete inputs: an empty source
with valid indices is a no-op, and an out-of-range source index throws. -/
theorem applyMove_empty_source_noop_witness :
    (⟨[⟨[], 4⟩, ⟨["red"], 4⟩], 1, 1⟩ : GameState).applyMove ⟨0, 1, 1⟩ =
      .ok (⟨[⟨[], 4⟩, ⟨["red"], 4⟩], 1, 1⟩ : GameState) ∧
    ∃ msg, (⟨[⟨["red"], 4⟩], 1, 0⟩ : GameState).applyMove ⟨0, 3, 1⟩ =
      .error msg :=
  ⟨(applyMove_empty_source_noop_out_of_range_throws _ _).1
      (by decide) (by decide) (by decide),
    (applyMove_empty_source_noop_out_of_range_throws
        (⟨[⟨["red"], 4⟩], 1, 0⟩ : GameState) ⟨0, 3, 1⟩).2 (by decide)⟩

/-- C10: with a non-positive `maxSteps` budget the solver's loop condition
`statesExplored < maxSteps` fails immediately, so `solvePuzzle` reports
`{solved: false, path: null, timedOut: true}` without exploring any state —
regardless of the initial state, in particular even when it is already
complete. -/
theorem solvePuzzle_nonpositive_budget (timeoutHit : Nat → Bool)
    (s : GameState) (maxSteps : Int) (h : maxSteps ≤ 0) :
    solvePuzzle timeoutHit s maxSteps = .ok ⟨false, none, true⟩ := by
  unfold solvePuzzle
  rw [Int.toNat_of_nonpos h]
  rfl

/-- C10, witness: a zero budget on an already-complete (empty) state is
still reported as a timeout. -/
theorem solvePuzzle_nonpositive_budget_witness :
    (⟨[], 0, 0⟩ : GameState).isComplete = true ∧
    solvePuzzle (fun _ => false) ⟨[], 0, 0⟩ 0 = .ok ⟨false, none, true⟩ :=
  ⟨rfl, solvePuzzle_nonpositive_budget (fun _ => false) ⟨[], 0, 0⟩ 0 (by decide)⟩

/-- C8: `calculateEntropy` weights a color change at segment index `i`
(index 0 = bottom of the vial) by `i * 0.5`, so a change near the TOP
weighs more, not less: the single change of `["red","blue","blue","blue"]`
sits at index 1 (near the bottom) and yields entropy `1 + 0.5 = 1.5`, while
the single change of `["red","red","red","blue"]` sits at index 3 (the top)
and yields `1 + 1.5 = 2.5`, contradicting the claimed (and the code
comment's own) bottom-heavier weighting. -/
theorem calculateEntropy_weighs_top_changes_more :
    calculateEntropy ⟨[⟨["red", "blue", "blue", "blue"], 4⟩], 2, 0⟩ = 3/2 ∧
    calculateEntropy ⟨[⟨["red", "red", "red", "blue"], 4⟩], 2, 0⟩ = 5/2 ∧
    calculateEntropy ⟨[⟨["red", "blue", "blue", "blue"], 4⟩], 2, 0⟩ <
      calculateEntropy ⟨[⟨["red", "red", "red", "blue"], 4⟩], 2, 0⟩ := by
  have e1 : calculateEntropy ⟨[⟨["red", "blue", "blue", "blue"], 4⟩], 2, 0⟩ = 3/2 := by
    have h1 : changeIndices ⟨["red", "blue", "blue", "blue"], 4⟩ = [1] := rfl
    have h2 : ([⟨["red", "blue", "blue", "blue"], 4⟩] : List Vial).flatMap
        (fun v => v.segments.filter (fun c => c ≠ "")) =
          ["red", "blue", "blue", "blue"] := rfl
    have h3 : (["red", "blue", "blue", "blue"] : List String).dedup =
        ["red", "blue"] := rfl
    have h4 : vialsContaining ⟨[⟨["red", "blue", "blue", "blue"], 4⟩], 2, 0⟩ "red" = 1 := rfl
    have h5 : vialsContaining ⟨[⟨["red", "blue", "blue", "blue"], 4⟩], 2, 0⟩ "blue" = 1 := rfl
    simp [calculateEntropy, h1, h2, h3, h4, h5]
    norm_num
  have e2 : calculateEntropy ⟨[⟨["red", "red", "red", "blue"], 4⟩], 2, 0⟩ = 5/2 := by
    have h1 : changeIndices ⟨["red", "red", "red", "blue"], 4⟩ = [3] := rfl
    have h2 : ([⟨["red", "red", "red", "blue"], 4⟩] : List Vial).flatMap
        (fun v => v.segments.filter (fun c => c ≠ "")) =
          ["red", "red", "red", "blue"] := rfl
    have h3 : (["red", "red", "red", "blue"] : List String).dedup =
        ["red", "blue"] := rfl
    have h4 : vialsContaining ⟨[⟨["red", "red", "red", "blue"], 4⟩], 2, 0⟩ "red" = 1 := rfl
    have h5 : vialsContaining ⟨[⟨["red", "red", "red", "blue"], 4⟩], 2, 0⟩ "blue" = 1 := rfl
    simp [calculateEntropy, h1, h2, h3, h4, h5]
    norm_num
  refine ⟨e1, e2, ?_⟩
  rw [e1, e2]
  norm_num

end WaterSort
namespace WaterSort

/-- `takeWhile` never lengthens a list. -/
theorem length_takeWhile_le (p : Color → Bool) (l : List Color) :
    (l.takeWhile p).length ≤ l.length := by
  induction l with
  | nil => simp
  | cons a t ih =>
    by_cases h : p a
    · simp only [List.takeWhile_cons, h, if_true, List.length_cons]
      omega
    · simp [List.takeWhile_cons, h]

/-- The top run never exceeds the number of segments. -/
theorem countTop_le_length (v : Vial) (c : Color) :
    countTopSegmentsOfSameColor v c ≤ v.segments.length := by
  have := length_takeWhile_le (fun s => s == c) v.segments.reverse
  unfold countTopSegmentsOfSameColor
  simpa using this

/-- The last `n` segments are all `c` whenever `n` is at most the length of
the top same-color run. -/
theorem drop_eq_replicate_of_le_countTop {v : Vial} {c : Color} {n : Nat}
    (h : n ≤ countTopSegmentsOfSameColor v c) :
    v.segments.drop (v.segments.length - n) = List.replicate n c := by
  have hrev : v.segments.drop (v.segments.length - n) =
      (v.segments.reverse.take n).reverse := by
    rw [List.take_reverse, List.reverse_reverse]
  rw [hrev]
  have htake : v.segments.reverse.take n =
      (v.segments.reverse.takeWhile (fun s => s == c)).take n := by
    conv_lhs => rw [← List.takeWhile_append_dropWhile (fun s => s == c) v.segments.reverse]
    exact List.take_append_of_le_length h
  have hrepl : (v.segments.reverse.takeWhile (fun s => s == c)).take n =
      List.replicate n c := by
    rw [List.eq_replicate_iff]
    constructor
    · rw [List.length_take]
      have hh : n ≤ (v.segments.reverse.takeWhile (fun s => s == c)).length := h
      omega
    · intro b hb
      have hb' := List.mem_of_mem_take hb
      have := List.mem_takeWhile_imp hb'
      simpa using this
  rw [htake, hrepl, List.reverse_replicate]

/-- Replacing one element changes a mapped sum by the difference at that
position (stated addition-only to stay in `Nat`). -/
theorem sum_map_set (f : Vial → Nat) (l : List Vial) (i : Nat) (x : Vial)
    (h : i < l.length) :
    ((l.set i x).map f).sum + f l[i] = (l.map f).sum + f x := by
  induction l generalizing i with
  | nil => simp at h
  | cons a t ih =>
    cases i with
    | zero => simp [List.set]; omega
    | succ k =>
      have hk : k < t.length := by simpa using h
      have := ih k hk
      simp only [List.set, List.map_cons, List.sum_cons, List.getElem_cons_succ]
      omega

/-- `applyMove` on distinct in-range indices with a non-empty source:
the explicit result state. -/
theorem applyMove_eq_ok_of_ne (s : GameState) (m : Move)
    (hs : m.sourceVialIndex < s.vials.length)
    (ht : m.targetVialIndex < s.vials.length)
    (hne : m.sourceVialIndex ≠ m.targetVialIndex)
    {c : Color}
    (htop : s.vials[m.sourceVialIndex].getTopColor = some c) :
    s.applyMove m = .ok { s with
      vials :=
        (s.vials.set m.sourceVialIndex
          { s.vials[m.sourceVialIndex] with
            segments := s.vials[m.sourceVialIndex].segments.take
              (s.vials[m.sourceVialIndex].segments.length - m.colorsToPour) }).set
          m.targetVialIndex
          { s.vials[m.targetVialIndex] with
            segments := s.vials[m.targetVialIndex].segments ++
              List.replicate m.colorsToPour c } } := by
  unfold GameState.applyMove
  rw [dif_pos hs, dif_pos ht]
  simp only [List.get_eq_getElem, htop]
  have hget : ∀ (x : Vial) (hj : m.targetVialIndex <
      (s.vials.set m.sourceVialIndex x).length),
      (s.vials.set m.sourceVialIndex x)[m.targetVialIndex] =
        s.vials[m.targetVialIndex] :=
    fun x hj => List.getElem_set_ne hne hj
  simp [hget]

end WaterSort
namespace WaterSort

/-- What membership in `getAvailableMoves` guarantees about a move. -/
theorem of_mem_getAvailableMoves {s : GameState} {m : Move}
    (h : m ∈ s.getAvailableMoves) :
    ∃ (hs : m.sourceVialIndex < s.vials.length)
      (ht : m.targetVialIndex < s.vials.length),
      m.sourceVialIndex ≠ m.targetVialIndex ∧
      ∃ c, s.vials[m.sourceVialIndex].getTopColor = some c ∧
        s.vials[m.targetVialIndex].canReceive c = true ∧
        m.colorsToPour = min (countTopSegmentsOfSameColor s.vials[m.sourceVialIndex] c)
          (s.vials[m.targetVialIndex].capacity - s.vials[m.targetVialIndex].segments.length) ∧
        0 < m.colorsToPour := by
  unfold GameState.getAvailableMoves at h
  rw [List.mem_flatMap] at h
  obtain ⟨i, hi, hmem⟩ := h
  rw [List.mem_range, GameState.totalVials] at hi
  rw [List.getElem?_eq_getElem hi] at hmem
  simp only [] at hmem
  by_cases hemp : s.vials[i].isEmpty = true
  · simp [hemp] at hmem
  · simp only [Bool.not_eq_true] at hemp
    rw [hemp] at hmem
    simp only [Bool.false_eq_true, if_false] at hmem
    cases hc : s.vials[i].getTopColor with
    | none =>
      rw [hc] at hmem
      simp at hmem
    | some c =>
      rw [hc] at hmem
      rw [List.mem_filterMap] at hmem
      obtain ⟨j, hj, heq⟩ := hmem
      rw [List.mem_range, GameState.totalVials] at hj
      by_cases hij : i = j
      · rw [if_pos hij] at heq
        exact absurd heq (by simp)
      · rw [if_neg hij] at heq
        rw [List.getElem?_eq_getElem hj] at heq
        simp only [] at heq
        by_cases hrecv : s.vials[j].canReceive c = true
        · rw [hrecv] at heq
          simp only [if_true] at heq
          by_cases hpos : 0 < min (countTopSegmentsOfSameColor s.vials[i] c)
              (s.vials[j].capacity - s.vials[j].segments.length)
          · rw [if_pos hpos] at heq
            have hm : m = ⟨i, j, min (countTopSegmentsOfSameColor s.vials[i] c)
                (s.vials[j].capacity - s.vials[j].segments.length)⟩ := by
              exact (Option.some_inj.mp heq).symm
            subst hm
            exact ⟨hi, hj, hij, c, hc, hrecv, rfl, hpos⟩
          · rw [if_neg hpos] at heq
            exact absurd heq (by simp)
        · simp only [Bool.not_eq_true] at hrecv
          rw [hrecv] at heq
          simp at heq

end WaterSort
namespace WaterSort

/-- C4: starting from a state whose vials respect their capacities, applying
any move returned by `getAvailableMoves` succeeds, keeps
`0 ≤ segments.length ≤ capacity` for every vial, and preserves the total
segment count of every color. -/
theorem move_preserves_capacity_and_colors (s : GameState) (m : Move)
    (hcap : ∀ v ∈ s.vials, v.segments.length ≤ v.capacity)
    (hm : m ∈ s.getAvailableMoves) :
    ∃ s', s.applyMove m = .ok s' ∧
      (∀ v ∈ s'.vials, v.segments.length ≤ v.capacity) ∧
      (∀ c, colorTotal s' c = colorTotal s c) := by
  obtain ⟨hs, ht, hne, c, htop, hrecv, hpour, hpos⟩ := of_mem_getAvailableMoves hm
  have heq := applyMove_eq_ok_of_ne s m hs ht hne htop
  refine ⟨_, heq, ?_, ?_⟩
  · -- capacity invariant
    intro v hv
    simp only [] at hv
    rcases List.mem_or_eq_of_mem_set hv with hv1 | hv1
    · rcases List.mem_or_eq_of_mem_set hv1 with hv2 | hv2
      · exact hcap v hv2
      · subst hv2
        simp only [List.length_take]
        have := hcap _ (List.getElem_mem hs)
        omega
    · subst hv1
      simp only [List.length_append, List.length_replicate]
      have h1 := hcap _ (List.getElem_mem ht)
      have h2 : m.colorsToPour ≤
          s.vials[m.targetVialIndex].capacity - s.vials[m.targetVialIndex].segments.length := by
        rw [hpour]; exact min_le_right _ _
      omega
  · -- color conservation
    intro d
    have hn_run : m.colorsToPour ≤ countTopSegmentsOfSameColor s.vials[m.sourceVialIndex] c := by
      rw [hpour]; exact min_le_left _ _
    have hdrop := drop_eq_replicate_of_le_countTop (v := s.vials[m.sourceVialIndex]) hn_run
    -- split the source segments
    have hsplit :
        (s.vials[m.sourceVialIndex].segments.take
            (s.vials[m.sourceVialIndex].segments.length - m.colorsToPour)).count d +
          (List.replicate m.colorsToPour c).count d =
        s.vials[m.sourceVialIndex].segments.count d := by
      conv_rhs => rw [← List.take_append_drop
        (s.vials[m.sourceVialIndex].segments.length - m.colorsToPour)
        s.vials[m.sourceVialIndex].segments]
      rw [List.count_append, hdrop]
    unfold colorTotal
    simp only []
    set f : Vial → Nat := fun v => v.segments.count d with hf
    set srcNew : Vial := { s.vials[m.sourceVialIndex] with
      segments := s.vials[m.sourceVialIndex].segments.take
        (s.vials[m.sourceVialIndex].segments.length - m.colorsToPour) } with hsrc
    set tgtNew : Vial := { s.vials[m.targetVialIndex] with
      segments := s.vials[m.targetVialIndex].segments ++
        List.replicate m.colorsToPour c } with htgt
    have hlen1 : m.targetVialIndex < (s.vials.set m.sourceVialIndex srcNew).length := by
      simpa using ht
    have h1 := sum_map_set f (s.vials.set m.sourceVialIndex srcNew)
      m.targetVialIndex tgtNew hlen1
    have h2 := sum_map_set f s.vials m.sourceVialIndex srcNew hs
    have hmid : (s.vials.set m.sourceVialIndex srcNew)[m.targetVialIndex] =
        s.vials[m.targetVialIndex] := List.getElem_set_ne hne hlen1
    rw [hmid] at h1
    have hsrcCount : f srcNew + (List.replicate m.colorsToPour c).count d =
        f s.vials[m.sourceVialIndex] := hsplit
    have htgtCount : f tgtNew = f s.vials[m.targetVialIndex] +
        (List.replicate m.colorsToPour c).count d := by
      rw [hf]
      simp only [htgt]
      exact List.count_append d _ _
    omega

end WaterSort
namespace WaterSort

/-- C4, witness: pouring the single red segment into the empty vial. -/
theorem move_preserves_capacity_and_colors_witness :
    ∃ s', (⟨[⟨["red"], 4⟩, ⟨[], 4⟩], 1, 1⟩ : GameState).applyMove ⟨0, 1, 1⟩ = .ok s' ∧
      (∀ v ∈ s'.vials, v.segments.length ≤ v.capacity) ∧
      (∀ c, colorTotal s' c = colorTotal (⟨[⟨["red"], 4⟩, ⟨[], 4⟩], 1, 1⟩ : GameState) c) :=
  move_preserves_capacity_and_colors _ _ (by decide) (by decide)

end WaterSort
namespace WaterSort

/-- `Vial.isEmpty` agrees with emptiness of the segments list. -/
theorem vial_isEmpty_eq (v : Vial) : v.isEmpty = v.segments.isEmpty := by
  rcases v with ⟨segs, cap⟩
  cases segs <;> rfl

/-- For a non-empty vial the top color is the last segment. -/
theorem getTopColor_eq_getLast? (v : Vial) (h : v.isEmpty = false) :
    v.getTopColor = v.segments.getLast? := by
  simp [Vial.getTopColor, h]

/-- Pointwise-equal functions give equal `flatMap`s. -/
theorem flatMap_congr {α β : Type} {f g : α → List β} {l : List α}
    (h : ∀ a ∈ l, f a = g a) : l.flatMap f = l.flatMap g := by
  induction l with
  | nil => rfl
  | cons a t ih =>
    simp only [List.flatMap_cons]
    rw [h a (by simp), ih (fun x hx => h x (by simp [hx]))]

/-- C5: `getAvailableMoves` returns exactly the moves described by the
specification: for every ordered pair `(i, j)` in row-major order with
`i ≠ j`, vial `i` non-empty and vial `j` able to receive vial `i`'s top
color, one move pouring `min(top run of i, capacity − len(j))`, emitted only
when positive. -/
theorem getAvailableMoves_eq_spec (s : GameState) :
    s.getAvailableMoves = specAvailableMoves s := by
  unfold GameState.getAvailableMoves specAvailableMoves
  rw [List.filterMap_flatMap]
  apply flatMap_congr
  intro i hi
  rw [List.mem_range, GameState.totalVials] at hi
  rw [List.filterMap_map]
  rw [List.getElem?_eq_getElem hi]
  simp only []
  by_cases hemp : s.vials[i].isEmpty = true
  · rw [hemp]
    simp only [if_true]
    symm
    rw [List.filterMap_eq_nil_iff]
    intro j hj
    simp only [Function.comp]
    by_cases hij : i = j
    · rw [if_pos hij]
    · rw [if_neg hij]
      rw [List.mem_range, GameState.totalVials] at hj
      rw [List.getElem?_eq_getElem hi, List.getElem?_eq_getElem hj]
      simp only []
      have : s.vials[i].segments.isEmpty = true := by
        rw [← vial_isEmpty_eq]; exact hemp
      rw [this]
      simp
  · simp only [Bool.not_eq_true] at hemp
    rw [hemp]
    simp only [Bool.false_eq_true, if_false]
    cases hc : s.vials[i].getTopColor with
    | none =>
      exfalso
      rw [getTopColor_eq_getLast? _ hemp] at hc
      rw [List.getLast?_eq_none_iff] at hc
      rw [vial_isEmpty_eq, hc] at hemp
      simp at hemp
    | some c =>
      apply List.filterMap_congr
      intro j hj
      rw [List.mem_range, GameState.totalVials] at hj
      simp only [Function.comp]
      by_cases hij : i = j
      · rw [if_pos hij, if_pos hij]
      · rw [if_neg hij, if_neg hij]
        rw [List.getElem?_eq_getElem hi, List.getElem?_eq_getElem hj]
        simp only []
        have hemp' : s.vials[i].segments.isEmpty = false := by
          rw [← vial_isEmpty_eq]; exact hemp
        rw [hemp']
        simp only [Bool.false_eq_true, if_false]
        have hlast : s.vials[i].segments.getLast? = some c := by
          rw [← getTopColor_eq_getLast? _ hemp]; exact hc
        rw [hlast]

end WaterSort
namespace WaterSort

/-- Splitting at a separator character that occurs in neither prefix is
unambiguous. -/
theorem append_sep_inj {sep : Char} :
    ∀ {t1 t2 r1 r2 : List Char}, sep ∉ t1 → sep ∉ t2 →
      t1 ++ sep :: r1 = t2 ++ sep :: r2 → t1 = t2 ∧ r1 = r2 := by
  intro t1
  induction t1 with
  | nil =>
    intro t2 r1 r2 h1 h2 he
    cases t2 with
    | nil =>
      simp only [List.nil_append, List.cons.injEq] at he
      exact ⟨rfl, he.2⟩
    | cons b t2' =>
      simp only [List.nil_append, List.cons_append, List.cons.injEq] at he
      exact absurd (he.1 ▸ List.mem_cons_self b t2') h2
  | cons a t1' ih =>
    intro t2 r1 r2 h1 h2 he
    cases t2 with
    | nil =>
      simp only [List.cons_append, List.nil_append, List.cons.injEq] at he
      exact absurd (he.1 ▸ List.mem_cons_self a t1') h1
    | cons b t2' =>
      simp only [List.cons_append, List.cons.injEq] at he
      obtain ⟨hab, he'⟩ := he
      have h1' : sep ∉ t1' := fun hx => h1 (List.mem_cons_of_mem a hx)
      have h2' : sep ∉ t2' := fun hx => h2 (List.mem_cons_of_mem b hx)
      obtain ⟨ht, hr⟩ := ih h1' h2' he'
      exact ⟨by rw [hab, ht], hr⟩

/-- Every character of a join is the separator or from one of the parts. -/
theorem mem_charJoin {sep x : Char} :
    ∀ {ts : List (List Char)}, x ∈ charJoin sep ts →
      x = sep ∨ ∃ t ∈ ts, x ∈ t := by
  intro ts
  induction ts with
  | nil => intro h; simp [charJoin] at h
  | cons t ts' ih =>
    cases ts' with
    | nil =>
      intro h
      exact Or.inr ⟨t, by simp, h⟩
    | cons u us =>
      intro h
      have h' : x ∈ t ++ sep :: charJoin sep (u :: us) := h
      rcases List.mem_append.mp h' with hx | hx
      · exact Or.inr ⟨t, by simp, hx⟩
      · rcases List.mem_cons.mp hx with hx | hx
        · exact Or.inl hx
        · rcases ih hx with hx | ⟨w, hw, hxw⟩
          · exact Or.inl hx
          · exact Or.inr ⟨w, by simp [hw], hxw⟩

/-- `charJoin` is injective on non-empty lists of separator-free parts. -/
theorem charJoin_inj {sep : Char} :
    ∀ (ts1 ts2 : List (List Char)), ts1 ≠ [] → ts2 ≠ [] →
      (∀ t ∈ ts1, sep ∉ t) → (∀ t ∈ ts2, sep ∉ t) →
      charJoin sep ts1 = charJoin sep ts2 → ts1 = ts2 := by
  intro ts1
  induction ts1 with
  | nil => intro ts2 h; exact absurd rfl h
  | cons t1 ts1' ih =>
    intro ts2 _ hne2 hg1 hg2 he
    cases ts2 with
    | nil => exact absurd rfl hne2
    | cons t2 ts2' =>
      cases ts1' with
      | nil =>
        cases ts2' with
        | nil =>
          have : t1 = t2 := he
          rw [this]
        | cons t3 ts3 =>
          have he' : t1 = t2 ++ sep :: charJoin sep (t3 :: ts3) := he
          exfalso
          have : sep ∈ t1 := by
            rw [he']
            exact List.mem_append.mpr (Or.inr (List.mem_cons_self _ _))
          exact hg1 t1 (List.mem_cons_self _ _) this
      | cons t4 ts4 =>
        cases ts2' with
        | nil =>
          have he' : t1 ++ sep :: charJoin sep (t4 :: ts4) = t2 := he
          exfalso
          have : sep ∈ t2 := by
            rw [← he']
            exact List.mem_append.mpr (Or.inr (List.mem_cons_self _ _))
          exact hg2 t2 (List.mem_cons_self _ _) this
        | cons t5 ts5 =>
          have he' : t1 ++ sep :: charJoin sep (t4 :: ts4) =
              t2 ++ sep :: charJoin sep (t5 :: ts5) := he
          obtain ⟨hh, ht⟩ := append_sep_inj
            (hg1 t1 (List.mem_cons_self _ _)) (hg2 t2 (List.mem_cons_self _ _)) he'
          have htail := ih (t5 :: ts5) (by simp) (by simp)
            (fun x hx => hg1 x (List.mem_cons_of_mem t1 hx))
            (fun x hx => hg2 x (List.mem_cons_of_mem t2 hx)) ht
          rw [hh, htail]

/-- `charJoin` is injective when every part is non-empty and
separator-free (no restriction to non-empty part lists). -/
theorem charJoin_inj_tokens {sep : Char} :
    ∀ (ts1 ts2 : List (List Char)),
      (∀ t ∈ ts1, t ≠ [] ∧ sep ∉ t) → (∀ t ∈ ts2, t ≠ [] ∧ sep ∉ t) →
      charJoin sep ts1 = charJoin sep ts2 → ts1 = ts2 := by
  intro ts1 ts2 hg1 hg2 he
  have hnil : ∀ (ts : List (List Char)), (∀ t ∈ ts, t ≠ [] ∧ sep ∉ t) →
      ts ≠ [] → charJoin sep ts ≠ [] := by
    intro ts hg hne
    cases ts with
    | nil => exact absurd rfl hne
    | cons t ts' =>
      cases ts' with
      | nil => exact (hg t (List.mem_cons_self _ _)).1
      | cons u us =>
        have : charJoin sep (t :: u :: us) = t ++ sep :: charJoin sep (u :: us) := rfl
        rw [this]
        intro hcontra
        rcases List.append_eq_nil.mp hcontra with ⟨_, h2⟩
        simp at h2
  cases h1 : ts1 with
  | nil =>
    cases h2 : ts2 with
    | nil => rfl
    | cons t ts' =>
      subst h1; subst h2
      exact absurd he.symm (hnil _ hg2 (by simp))
  | cons t ts' =>
    cases h2 : ts2 with
    | nil =>
      subst h1; subst h2
      exact absurd he (hnil _ hg1 (by simp))
    | cons u us =>
      subst h1; subst h2
      exact charJoin_inj _ _ (by simp) (by simp)
        (fun x hx => (hg1 x hx).2) (fun x hx => (hg2 x hx).2) he

/-- `joinSep` is `charJoin` at the character level for a one-character
separator. -/
theorem joinSep_data (sep : String) (c : Char) (hsep : sep.data = [c]) :
    ∀ ss : List String,
      (GameState.joinSep sep ss).data = charJoin c (ss.map String.data) := by
  intro ss
  induction ss with
  | nil => rfl
  | cons x ss' ih =>
    cases ss' with
    | nil => rfl
    | cons y ys =>
      have h1 : GameState.joinSep sep (x :: y :: ys) =
          x ++ sep ++ GameState.joinSep sep (y :: ys) := rfl
      have h2 : charJoin c ((x :: y :: ys).map String.data) =
          x.data ++ c :: charJoin c ((y :: ys).map String.data) := rfl
      rw [h1, h2, String.data_append, String.data_append, ih, hsep]
      simp

end WaterSort
namespace WaterSort

/-- Non-empty strings have non-empty character data. -/
theorem data_ne_nil_of_ne_empty {c : String} (h : c ≠ "") : c.data ≠ [] := by
  intro hd
  exact h (String.ext hd)

/-- Recovering the segments of each vial from their joined encodings. -/
theorem segments_of_charJoin_eq {segs1 segs2 : List Color}
    (hg1 : ∀ c ∈ segs1, SepFreeColor c) (hg2 : ∀ c ∈ segs2, SepFreeColor c)
    (he : charJoin ',' (segs1.map String.data) =
      charJoin ',' (segs2.map String.data)) : segs1 = segs2 := by
  have hmap := charJoin_inj_tokens _ _
    (fun t ht => by
      obtain ⟨col, hcol, rfl⟩ := List.mem_map.mp ht
      exact ⟨data_ne_nil_of_ne_empty (hg1 col hcol).1, (hg1 col hcol).2.1⟩)
    (fun t ht => by
      obtain ⟨col, hcol, rfl⟩ := List.mem_map.mp ht
      exact ⟨data_ne_nil_of_ne_empty (hg2 col hcol).1, (hg2 col hcol).2.1⟩)
    he
  exact List.map_injective_iff.mpr (fun a b hab => String.ext hab) hmap

/-- Recovering the vials' segment lists from the list of per-vial
encodings. -/
theorem vials_of_enc_eq :
    ∀ (l1 l2 : List Vial),
      (∀ v ∈ l1, ∀ c ∈ v.segments, SepFreeColor c) →
      (∀ v ∈ l2, ∀ c ∈ v.segments, SepFreeColor c) →
      l1.map (fun v => charJoin ',' (v.segments.map String.data)) =
        l2.map (fun v => charJoin ',' (v.segments.map String.data)) →
      l1.map Vial.segments = l2.map Vial.segments := by
  intro l1
  induction l1 with
  | nil =>
    intro l2 _ _ he
    cases l2 with
    | nil => rfl
    | cons v l2' => simp at he
  | cons v l1' ih =>
    intro l2 hg1 hg2 he
    cases l2 with
    | nil => simp at he
    | cons w l2' =>
      simp only [List.map_cons, List.cons.injEq] at he
      obtain ⟨hh, ht⟩ := he
      have hseg := segments_of_charJoin_eq
        (hg1 v (List.mem_cons_self _ _)) (hg2 w (List.mem_cons_self _ _)) hh
      have htail := ih l2' (fun x hx => hg1 x (List.mem_cons_of_mem v hx))
        (fun x hx => hg2 x (List.mem_cons_of_mem w hx)) ht
      simp only [List.map_cons, List.cons.injEq]
      exact ⟨hseg, htail⟩

/-- C7, counterexample: the color `"a,b"` collides with the two-segment
vial `["a", "b"]`: the two states differ in vial contents yet hash to the
same string `"a,b"`, so the hash is not injective on arbitrary states. -/
theorem getStateHash_collision_counterexample :
    GameState.getStateHash ⟨[⟨["a,b"], 4⟩], 1, 0⟩ =
      GameState.getStateHash ⟨[⟨["a", "b"], 4⟩], 1, 0⟩ ∧
    (⟨[⟨["a,b"], 4⟩], 1, 0⟩ : GameState).vials.map Vial.segments ≠
      (⟨[⟨["a", "b"], 4⟩], 1, 0⟩ : GameState).vials.map Vial.segments :=
  ⟨rfl, by decide⟩

/-- C7, amended: on states with at least one vial whose segments are all
non-empty and free of the separator characters `','` and `'|'` (the game's
palette colors all qualify), two states hash equal exactly when they have
identical vial contents in identical order; in particular the hash is a
pure function of the segment lists (stable under repeated calls and equal
for identical contents). -/
theorem getStateHash_inj_iff (s1 s2 : GameState)
    (hg1 : SepFreeState s1) (hg2 : SepFreeState s2)
    (hn1 : s1.vials ≠ []) (hn2 : s2.vials ≠ []) :
    s1.getStateHash = s2.getStateHash ↔
      s1.vials.map Vial.segments = s2.vials.map Vial.segments := by
  constructor
  · intro hh
    have hd := congrArg String.data hh
    rw [GameState.getStateHash, GameState.getStateHash,
      joinSep_data "|" '|' rfl, joinSep_data "|" '|' rfl,
      List.map_map, List.map_map] at hd
    have hcomp : (String.data ∘ fun v : Vial => GameState.joinSep "," v.segments) =
        fun v : Vial => charJoin ',' (v.segments.map String.data) := by
      funext v
      exact joinSep_data "," ',' rfl v.segments
    rw [hcomp] at hd
    have hgood : ∀ (s : GameState), SepFreeState s →
        ∀ t ∈ s.vials.map (fun v => charJoin ',' (v.segments.map String.data)),
          '|' ∉ t := by
      intro s hg t ht hx
      obtain ⟨v, hv, rfl⟩ := List.mem_map.mp ht
      rcases mem_charJoin hx with hx | ⟨w, hw, hxw⟩
      · exact absurd hx (by decide)
      · obtain ⟨col, hcol, rfl⟩ := List.mem_map.mp hw
        exact (hg v hv col hcol).2.2 hxw
    have houter := charJoin_inj _ _
      (by simpa using hn1) (by simpa using hn2)
      (hgood s1 hg1) (hgood s2 hg2) hd
    exact vials_of_enc_eq _ _ hg1 hg2 houter
  · intro hseg
    unfold GameState.getStateHash
    have e1 : s1.vials.map (fun v => GameState.joinSep "," v.segments) =
        (s1.vials.map Vial.segments).map (GameState.joinSep ",") := by
      rw [List.map_map]; rfl
    have e2 : s2.vials.map (fun v => GameState.joinSep "," v.segments) =
        (s2.vials.map Vial.segments).map (GameState.joinSep ",") := by
      rw [List.map_map]; rfl
    rw [e1, e2, hseg]

/-- C7, witness: two one-vial palette states, hashing differently because
their contents differ. -/
theorem getStateHash_inj_iff_witness :
    ((⟨[⟨["red"], 4⟩], 1, 0⟩ : GameState).getStateHash =
        (⟨[⟨["blue"], 4⟩], 1, 0⟩ : GameState).getStateHash ↔
      (⟨[⟨["red"], 4⟩], 1, 0⟩ : GameState).vials.map Vial.segments =
        (⟨[⟨["blue"], 4⟩], 1, 0⟩ : GameState).vials.map Vial.segments) :=
  getStateHash_inj_iff _ _ (by unfold SepFreeState SepFreeColor; decide)
    (by unfold SepFreeState SepFreeColor; decide) (by decide) (by decide)

end WaterSort
namespace WaterSort

/-- C9, counterexample: constructed with the numeric seed `-1`, the very
first `next()` returns `-16807 / 2147483647`, a negative number outside
`[0, 1)` (JavaScript's `%` keeps the dividend's sign). -/
theorem seededRandom_negative_counterexample :
    (SeededRandom.ofInt (-1)).next.2 < 0 := by
  have h : ((-1 : Int) * 16807).tmod 2147483647 = -16807 := by decide
  show ((((-1 : Int) * 16807).tmod 2147483647 : ℚ)) / 2147483647 < 0
  rw [h]
  norm_num

/-- After one LCG step from a non-negative seed, the seed lies in
`[0, 2147483647)`. -/
theorem nextSeed_bounds {r : SeededRandom} (h : 0 ≤ r.seed) :
    0 ≤ r.next.1.seed ∧ r.next.1.seed < 2147483647 := by
  constructor
  · exact Int.tmod_nonneg _ (by positivity)
  · exact Int.tmod_lt_of_pos _ (by norm_num)

/-- Iterating `next` preserves non-negativity of the seed. -/
theorem iterate_seed_nonneg {r : SeededRandom} (h : 0 ≤ r.seed) (k : Nat) :
    0 ≤ (r.iterate k).seed := by
  induction k with
  | zero => exact h
  | succ n ih => exact (nextSeed_bounds ih).1

/-- C9, amended: for every `SeededRandom` whose internal seed is
non-negative (in particular every non-negative numeric seed, and every
string seed whose 32-bit folded hash is non-negative), every call to
`next()` returns a rational in `[0, 1)`, and every call to
`nextInt(min, max)` with `min < max` returns an integer in `[min, max)`.
(With a negative seed both guarantees fail, see the counterexample.) -/
theorem seededRandom_next_in_unit_nextInt_in_range
    (r : SeededRandom) (h : 0 ≤ r.seed) (k : Nat) :
    (0 ≤ (r.iterate k).next.2 ∧ (r.iterate k).next.2 < 1) ∧
    (∀ lo hi : Int, lo < hi →
      lo ≤ ((r.iterate k).nextInt lo hi).2 ∧
        ((r.iterate k).nextInt lo hi).2 < hi) := by
  have hseed := iterate_seed_nonneg h k
  obtain ⟨h0, h1⟩ := nextSeed_bounds hseed
  have hq0 : (0 : ℚ) ≤ (r.iterate k).next.2 := by
    apply div_nonneg _ (by norm_num)
    exact_mod_cast h0
  have h1' : (((r.iterate k).seed * 16807).tmod 2147483647) < 2147483647 := h1
  have hq1 : (r.iterate k).next.2 < 1 := by
    show ((((r.iterate k).seed * 16807).tmod 2147483647 : Int) : ℚ) / 2147483647 < 1
    rw [div_lt_one (by norm_num)]
    exact_mod_cast h1'
  refine ⟨⟨hq0, hq1⟩, ?_⟩
  intro lo hi hlt
  unfold SeededRandom.nextInt
  simp only []
  constructor
  · have hfloor : (0 : Int) ≤ ⌊(r.iterate k).next.2 * ((hi : ℚ) - (lo : ℚ))⌋ := by
      rw [Int.floor_nonneg]
      apply mul_nonneg hq0
      have : (lo : ℚ) < (hi : ℚ) := by exact_mod_cast hlt
      linarith
    omega
  · have hfloor : ⌊(r.iterate k).next.2 * ((hi : ℚ) - (lo : ℚ))⌋ < hi - lo := by
      rw [Int.floor_lt]
      have hd : (0 : ℚ) < (hi : ℚ) - (lo : ℚ) := by
        have : (lo : ℚ) < (hi : ℚ) := by exact_mod_cast hlt
        linarith
      calc (r.iterate k).next.2 * ((hi : ℚ) - (lo : ℚ))
          < 1 * ((hi : ℚ) - (lo : ℚ)) := by
            exact mul_lt_mul_of_pos_right hq1 hd
        _ = ((hi - lo : Int) : ℚ) := by push_cast; ring
    omega

/-- C9, witness: the amended theorem at seed `123`, first step, range
`[0, 10)`. -/
theorem seededRandom_next_in_unit_witness :
    (0 ≤ ((SeededRandom.ofInt 123).iterate 1).next.2 ∧
      ((SeededRandom.ofInt 123).iterate 1).next.2 < 1) ∧
    (0 ≤ (((SeededRandom.ofInt 123).iterate 1).nextInt 0 10).2 ∧
      (((SeededRandom.ofInt 123).iterate 1).nextInt 0 10).2 < 10) :=
  ⟨(seededRandom_next_in_unit_nextInt_in_range (SeededRandom.ofInt 123)
      (by decide) 1).1,
    (seededRandom_next_in_unit_nextInt_in_range (SeededRandom.ofInt 123)
      (by decide) 1).2 0 10 (by decide)⟩

end WaterSort
namespace WaterSort

/-- Extending a valid path by one available, successful move. -/
theorem validPath_snoc {init st ns : GameState} {p : List Move} {m : Move}
    (hv : ValidPath init p) (hp : applyPath init p = .ok st)
    (hm : m ∈ st.getAvailableMoves) (ha : st.applyMove m = .ok ns) :
    ValidPath init (p ++ [m]) ∧ applyPath init (p ++ [m]) = .ok ns := by
  induction p generalizing init with
  | nil =>
    have hst : init = st := by
      simpa [applyPath] using hp
    subst hst
    refine ⟨⟨hm, ns, ha, trivial⟩, ?_⟩
    simp [applyPath, ha]
  | cons q rest ih =>
    obtain ⟨hq, s', hapq, hvrest⟩ := hv
    have hp' : applyPath s' rest = .ok st := by
      simpa only [applyPath, hapq] using hp
    have := ih hvrest hp'
    refine ⟨⟨hq, s', hapq, this.1⟩, ?_⟩
    simp only [List.cons_append, applyPath, hapq]
    exact this.2

/-- `prioritizeMoves` is a permutation, hence preserves membership. -/
theorem mem_of_mem_prioritizeMoves {moves : List Move} {s : GameState}
    {m : Move} (h : m ∈ prioritizeMoves moves s) : m ∈ moves :=
  (List.mergeSort_perm moves _).mem_iff.mp h

/-- The enqueue loop keeps every queue entry's invariant. -/
theorem processMoves_inv {init state : GameState} {path : List Move}
    (hvp : ValidPath init path) (hap : applyPath init path = .ok state) :
    ∀ (ms : List Move) (visited : List String) (queue : List QueueEntry),
      (∀ m ∈ ms, m ∈ state.getAvailableMoves) →
      (∀ e ∈ queue, EntryInv init e) →
      ∀ {out : List String × List QueueEntry},
        processMoves state path ms visited queue = .ok out →
        ∀ e ∈ out.2, EntryInv init e := by
  intro ms
  induction ms with
  | nil =>
    intro visited queue _ hq out hout e he
    have : out = (visited, queue) := by
      simpa [processMoves] using hout.symm
    subst this
    exact hq e he
  | cons m rest ih =>
    intro visited queue hms hq out hout e he
    unfold processMoves at hout
    cases happ : state.applyMove m with
    | error err =>
      rw [happ] at hout
      exact absurd hout (by simp)
    | ok ns =>
      rw [happ] at hout
      simp only [] at hout
      by_cases hvis : visited.contains ns.getStateHash = true
      · rw [if_pos hvis] at hout
        exact ih visited queue (fun x hx => hms x (List.mem_cons_of_mem m hx))
          hq hout e he
      · rw [if_neg hvis] at hout
        refine ih _ _ (fun x hx => hms x (List.mem_cons_of_mem m hx)) ?_ hout e he
        intro e' he'
        rcases List.mem_append.mp he' with h | h
        · exact hq e' h
        · have he'' : e' = ⟨ns, path ++ [m], some m⟩ := by simpa using h
          subst he''
          have hsnoc := validPath_snoc hvp hap
            (hms m (List.mem_cons_self _ _)) happ
          exact ⟨hsnoc.1, hsnoc.2⟩

/-- The solver loop only returns `solved := true` for a dequeued entry whose
path is valid and replays to a complete state. -/
theorem solveLoop_sound {init : GameState} (timeoutHit : Nat → Bool) :
    ∀ (fuel se : Nat) (queue : List QueueEntry) (visited : List String),
      (∀ e ∈ queue, EntryInv init e) →
      ∀ {r : SolveResult},
        solveLoop timeoutHit fuel se queue visited = .ok r →
        r.solved = true →
        r.timedOut = false ∧ ∃ p, r.path = some p ∧ ValidPath init p ∧
          ∃ final, applyPath init p = .ok final ∧ final.isComplete = true := by
  intro fuel
  induction fuel with
  | zero =>
    intro se queue visited _ r hr hs
    have : (⟨false, none, true⟩ : SolveResult) = r := by
      simpa [solveLoop] using hr
    rw [← this] at hs
    simp at hs
  | succ n ih =>
    intro se queue visited hq r hr hs
    cases queue with
    | nil =>
      have : (⟨false, none, false⟩ : SolveResult) = r := by
        simpa [solveLoop] using hr
      rw [← this] at hs
      simp at hs
    | cons current rest =>
      unfold solveLoop at hr
      by_cases htime : timeoutHit se = true
      · rw [if_pos htime] at hr
        have : (⟨false, none, true⟩ : SolveResult) = r := by simpa using hr
        rw [← this] at hs
        simp at hs
      · rw [if_neg htime] at hr
        by_cases hcomp : current.state.isComplete = true
        · rw [if_pos hcomp] at hr
          have hre : (⟨true, some current.path, false⟩ : SolveResult) = r := by
            simpa using hr
          obtain ⟨hvp, hap⟩ := hq current (List.mem_cons_self _ _)
          rw [← hre]
          exact ⟨rfl, current.path, rfl, hvp, current.state, hap, hcomp⟩
        · rw [if_neg hcomp] at hr
          simp only [] at hr
          cases hpm : processMoves current.state current.path
              (prioritizeMoves
                (current.state.getAvailableMoves.filter
                  (keepMove current.state current.lastMove))
                current.state)
              visited rest with
          | error err =>
            rw [hpm] at hr
            exact absurd hr (by simp)
          | ok out =>
            rw [hpm] at hr
            obtain ⟨hvp, hap⟩ := hq current (List.mem_cons_self _ _)
            refine ih (se + 1) out.2 out.1 ?_ hr hs
            intro e he
            refine processMoves_inv hvp hap _ _ _ ?_ ?_ hpm e he
            · intro x hx
              have hx' := mem_of_mem_prioritizeMoves hx
              exact (List.mem_filter.mp hx').1
            · intro e' he'
              exact hq e' (List.mem_cons_of_mem current he')

/-- C2: whenever the solver reports `solved = true`, the reported result is
not a timeout and carries a path that is valid (every move drawn from
`getAvailableMoves` of the state it is applied to) and replays through
`applyMove` from the initial state to a state satisfying `isComplete`. -/
theorem solvePuzzle_sound (timeoutHit : Nat → Bool) (init : GameState)
    (maxSteps : Int) (r : SolveResult)
    (hr : solvePuzzle timeoutHit init maxSteps = .ok r)
    (hs : r.solved = true) :
    r.timedOut = false ∧ ∃ p, r.path = some p ∧ ValidPath init p ∧
      ∃ final, applyPath init p = .ok final ∧ final.isComplete = true := by
  refine solveLoop_sound timeoutHit maxSteps.toNat 0 _ _ ?_ hr hs
  intro e he
  have : e = ⟨init, [], none⟩ := by simpa using he
  subst this
  exact ⟨trivial, rfl⟩

/-- C2, witness: a state with one full monochrome vial is solved by the
empty path. -/
theorem solvePuzzle_sound_witness :
    (⟨true, some [], false⟩ : SolveResult).timedOut = false ∧
    ∃ p, (⟨true, some [], false⟩ : SolveResult).path = some p ∧
      ValidPath ⟨[⟨["red", "red"], 2⟩], 1, 0⟩ p ∧
      ∃ final, applyPath ⟨[⟨["red", "red"], 2⟩], 1, 0⟩ p = .ok final ∧
        final.isComplete = true :=
  solvePuzzle_sound (fun _ => false) ⟨[⟨["red", "red"], 2⟩], 1, 0⟩ 5
    ⟨true, some [], false⟩ rfl rfl

end WaterSort
namespace WaterSort.Gen

/-- Setting an index to its own value is the identity. -/
theorem set_getElem_self (l : List GVial) (i : Nat) (h : i < l.length) :
    l.set i l[i] = l := by
  apply List.ext_getElem?
  intro n
  by_cases hn : n = i
  · subst hn
    rw [List.getElem?_set_self h, List.getElem?_eq_getElem h]
  · rw [List.getElem?_set_ne (show i ≠ n from fun hh => hn hh.symm)]

/-- `getD` with a default at an in-range index. -/
theorem getD_eq_getElem (l : List GVial) (i : Nat) (h : i < l.length) :
    l.getD i [] = l[i] := by
  rw [List.getD_eq_getElem?_getD, List.getElem?_eq_getElem h]
  rfl

/-- `getD` after `set` at the same (in-range) index. -/
theorem getD_set_self (l : List GVial) (i : Nat) (x : GVial)
    (h : i < l.length) : (l.set i x).getD i [] = x := by
  rw [List.getD_eq_getElem?_getD, List.getElem?_set_self h]
  rfl

/-- `getD` after `set` at a different index. -/
theorem getD_set_ne (l : List GVial) {i j : Nat} (x : GVial) (hij : i ≠ j) :
    (l.set i x).getD j [] = l.getD j [] := by
  rw [List.getD_eq_getElem?_getD, List.getElem?_set_ne hij,
    ← List.getD_eq_getElem?_getD]

/-- What `isLegalMove = true` means. -/
theorem isLegalMove_true_elim {a b : GVial} (h : isLegalMove a b = true) :
    a ≠ [] ∧ b.length < VIAL_CAPACITY ∧ (b = [] ∨ b.getLast? = a.getLast?) := by
  unfold isLegalMove at h
  by_cases h1 : (a.length == 0 || decide (b.length ≥ VIAL_CAPACITY)) = true
  · rw [if_pos h1] at h
    exact absurd h (by simp)
  · rw [if_neg h1] at h
    simp only [Bool.or_eq_true, beq_iff_eq, decide_eq_true_eq, not_or,
      not_le] at h1
    obtain ⟨ha, hb⟩ := h1
    by_cases h2 : (b.length == 0) = true
    · refine ⟨fun hx => ha (by simp [hx]), hb, Or.inl ?_⟩
      simpa [List.length_eq_zero] using h2
    · rw [if_neg h2] at h
      exact ⟨fun hx => ha (by simp [hx]), hb, Or.inr (by simpa using h)⟩

/-- Building `isLegalMove = true`. -/
theorem isLegalMove_true_intro {a b : GVial} (ha : a ≠ [])
    (hb : b.length < VIAL_CAPACITY)
    (hmatch : b = [] ∨ b.getLast? = a.getLast?) : isLegalMove a b = true := by
  unfold isLegalMove
  have h1 : (a.length == 0 || decide (b.length ≥ VIAL_CAPACITY)) = false := by
    simp only [Bool.or_eq_false_iff, beq_eq_false_iff_ne, decide_eq_false_iff_not,
      not_le]
    exact ⟨by simpa [List.length_eq_zero] using ha, hb⟩
  rw [if_neg (by simp [h1])]
  rcases hmatch with hm | hm
  · rw [if_pos (by simp [hm])]
  · by_cases h2 : (b.length == 0) = true
    · rw [if_pos h2]
    · rw [if_neg h2]
      simp [hm]

/-- `performMove` unfolded on a legal move. -/
theorem performMove_eq_of_legal {vs : List GVial} {f t : Nat} {c : String}
    (hleg : isLegalMove (vs.getD f []) (vs.getD t []) = true)
    (hc : (vs.getD f []).getLast? = some c) :
    performMove vs f t =
      ((vs.set f (vs.getD f []).dropLast).set t
        ((vs.set f (vs.getD f []).dropLast).getD t [] ++ [c]), true) := by
  unfold performMove
  simp only [hleg, if_true, hc]

/-- A legal `performMove` on a good state keeps it good and is undone
exactly by the swapped move. -/
theorem performMove_inverse {vs vs' : List GVial} {f t : Nat}
    (hf : f < vs.length) (ht : t < vs.length) (hg : GoodVials vs)
    (h : performMove vs f t = (vs', true)) :
    GoodVials vs' ∧ performMove vs' t f = (vs, true) := by
  by_cases hleg : isLegalMove (vs.getD f []) (vs.getD t []) = true
  case neg =>
    exfalso
    have hfalse : performMove vs f t = (vs, false) := by
      unfold performMove
      simp only [hleg, if_false, Bool.false_eq_true]
    rw [hfalse] at h
    have := congrArg Prod.snd h
    simp at this
  case pos =>
    obtain ⟨hne, hcap, hmatch⟩ := isLegalMove_true_elim hleg
    obtain ⟨c, hc⟩ : ∃ c, (vs.getD f []).getLast? = some c := by
      cases hx : (vs.getD f []).getLast? with
      | none => exact absurd (List.getLast?_eq_none_iff.mp hx) hne
      | some c => exact ⟨c, rfl⟩
    have hfget : vs.getD f [] = vs[f] := getD_eq_getElem vs f hf
    have htget : vs.getD t [] = vs[t] := getD_eq_getElem vs t ht
    rw [performMove_eq_of_legal hleg hc] at h
    rw [hfget] at hc hne h hmatch
    rw [htget] at hmatch hcap
    have hmonoF : Mono vs[f] := (hg _ (List.getElem_mem hf)).1
    have hlenF : vs[f].length ≤ VIAL_CAPACITY := (hg _ (List.getElem_mem hf)).2
    have hmonoT : Mono vs[t] := (hg _ (List.getElem_mem ht)).1
    have hFne : vs[f] ≠ [] := hne
    have hcmem : c ∈ vs[f] := by
      rw [List.getLast?_eq_getLast _ hFne] at hc
      have hmem := List.getLast_mem hFne
      rwa [Option.some_inj.mp hc] at hmem
    have hallF : ∀ x ∈ vs[f], x = c := fun x hx => hmonoF x hx c hcmem
    have hallT : ∀ x ∈ vs[t], x = c := by
      rcases hmatch with hm | hm
      · intro x hx
        rw [hm] at hx
        simp at hx
      · have hneT : vs[t] ≠ [] := by
          intro hx0
          rw [hx0] at hm
          rw [hc] at hm
          simp at hm
        have hcT : c ∈ vs[t] := by
          have h2 := hm.trans hc
          rw [List.getLast?_eq_getLast _ hneT] at h2
          have hmem := List.getLast_mem hneT
          rwa [Option.some_inj.mp h2] at hmem
        exact fun x hx => hmonoT x hx c hcT
    have hrestore : vs[f].dropLast ++ [c] = vs[f] := by
      have hgl := List.dropLast_append_getLast hFne
      rw [List.getLast?_eq_getLast _ hFne] at hc
      rw [Option.some_inj.mp hc] at hgl
      exact hgl
    by_cases hft : f = t
    · -- pouring a vial onto itself leaves the state unchanged
      subst hft
      have hpair : performMove vs f f = (vs, true) := by
        rw [performMove_eq_of_legal hleg (by rw [hfget]; exact hc)]
        rw [hfget]
        rw [getD_set_self _ _ _ hf, List.set_set, hrestore,
          set_getElem_self vs f hf]
      have hvs' : vs' = vs := by
        have h1 := (congrArg Prod.fst h).symm
        simp only [] at h1
        rw [getD_set_self _ _ _ hf, List.set_set, hrestore,
          set_getElem_self vs f hf] at h1
        exact h1
      subst hvs'
      exact ⟨hg, hpair⟩
    · have hmid : (vs.set f vs[f].dropLast).getD t [] = vs[t] := by
        rw [getD_set_ne _ _ hft, htget]
      rw [hmid] at h
      have hvs' : vs' = (vs.set f vs[f].dropLast).set t (vs[t] ++ [c]) :=
        (congrArg Prod.fst h).symm
      have htf : t ≠ f := fun hh => hft hh.symm
      constructor
      · rw [hvs']
        intro v hv
        rcases List.mem_or_eq_of_mem_set hv with hv1 | hv1
        · rcases List.mem_or_eq_of_mem_set hv1 with hv2 | hv2
          · exact hg v hv2
          · subst hv2
            refine ⟨?_, ?_⟩
            · intro a ha b hb
              exact (hallF a (List.mem_of_mem_dropLast ha)).trans
                (hallF b (List.mem_of_mem_dropLast hb)).symm
            · have hdl : vs[f].dropLast.length = vs[f].length - 1 := by simp
              omega
        · subst hv1
          refine ⟨?_, ?_⟩
          · have hmem : ∀ x ∈ vs[t] ++ [c], x = c := by
              intro x hx
              rcases List.mem_append.mp hx with hx | hx
              · exact hallT x hx
              · simpa using hx
            intro a ha b hb
            exact (hmem a ha).trans (hmem b hb).symm
          · simp only [List.length_append, List.length_singleton]
            omega
      · have hTget' : vs'.getD t [] = vs[t] ++ [c] := by
          rw [hvs']
          exact getD_set_self _ _ _ (by simpa using ht)
        have hFget' : vs'.getD f [] = vs[f].dropLast := by
          rw [hvs', getD_set_ne _ _ htf]
          exact getD_set_self _ _ _ hf
        have hlegBack : isLegalMove (vs'.getD t []) (vs'.getD f []) = true := by
          apply isLegalMove_true_intro
          · rw [hTget']
            simp
          · rw [hFget']
            have hdl : vs[f].dropLast.length = vs[f].length - 1 := by simp
            have hposF : 0 < vs[f].length := List.length_pos.mpr hFne
            omega
          · rw [hFget', hTget']
            by_cases hdl : vs[f].dropLast = []
            · exact Or.inl hdl
            · right
              rw [List.getLast?_concat, List.getLast?_eq_getLast _ hdl]
              have hlc : vs[f].dropLast.getLast hdl = c :=
                hallF _ (List.mem_of_mem_dropLast (List.getLast_mem hdl))
              rw [hlc]
        have hcback : (vs'.getD t []).getLast? = some c := by
          rw [hTget', List.getLast?_concat]
        rw [performMove_eq_of_legal hlegBack hcback]
        rw [hTget', List.dropLast_concat]
        have hmid2 : (vs'.set t vs[t]).getD f [] = vs[f].dropLast := by
          rw [getD_set_ne _ _ htf, hFget']
        rw [hmid2, hrestore, hvs', List.set_set]
        rw [List.set_comm _ _ _ htf, List.set_set, set_getElem_self vs f hf,
          set_getElem_self vs t ht]

end WaterSort.Gen
namespace WaterSort.Gen

/-- Applying a concatenation of steps is sequential application. -/
theorem applySteps_append (vs : List GVial) (a b : List MoveStep) :
    applySteps vs (a ++ b) = applySteps (applySteps vs a) b := by
  induction a generalizing vs with
  | nil => rfl
  | cons m rest ih =>
    simp only [List.cons_append, applySteps]
    exact ih _

/-- Replaying the reversed, swapped shuffle steps from the shuffled state
restores the starting state; the run also keeps the state good. -/
theorem shuffleRun_reversible {vs vs'' : List GVial} {steps : List MoveStep}
    (hrun : ShuffleRun vs steps vs'') (hg : GoodVials vs) :
    applySteps vs'' (solveSteps steps) = vs ∧ GoodVials vs'' := by
  induction hrun with
  | nil => exact ⟨rfl, hg⟩
  | cons hf ht hpm hne hrun' ih =>
    rename_i vs0 vs1 vs2 m steps'
    obtain ⟨hgood1, hinv⟩ := performMove_inverse hf ht hg hpm
    obtain ⟨ihEq, ihGood⟩ := ih hgood1
    refine ⟨?_, ihGood⟩
    have hsolve : solveSteps (m :: steps') =
        solveSteps steps' ++ [⟨m.toVialIndex, m.fromVialIndex⟩] := by
      unfold solveSteps
      rw [List.reverse_cons, List.map_append]
      rfl
    rw [hsolve, applySteps_append, ihEq]
    show (performMove vs1 m.toVialIndex m.fromVialIndex).1 = vs0
    rw [hinv]

/-- C1: for every shuffle run recorded by `generateSolvablePuzzle` from its
solved initial configuration, applying the solution steps (the shuffle steps
reversed, source and target swapped) to the shuffled state via `performMove`
restores the initial configuration, in which every vial is complete (empty
or full of a single color). -/
theorem generateSolvablePuzzle_solution_solves
    (steps : List MoveStep) (shuffled : List GVial)
    (hrun : ShuffleRun initialVials steps shuffled) :
    applySteps shuffled (solveSteps steps) = initialVials ∧
    allVialsComplete (applySteps shuffled (solveSteps steps)) := by
  have hg : GoodVials initialVials := by
    unfold GoodVials Mono
    decide
  obtain ⟨heq, _⟩ := shuffleRun_reversible hrun hg
  refine ⟨heq, ?_⟩
  rw [heq]
  unfold allVialsComplete
  decide

/-- C1, witness: a one-step shuffle (pour one red segment into the first
empty vial) whose reversed solution restores the solved configuration. -/
theorem generateSolvablePuzzle_solution_solves_witness :
    applySteps
        [["red", "red", "red"], ["blue", "blue", "blue", "blue"],
          ["green", "green", "green", "green"],
          ["yellow", "yellow", "yellow", "yellow"], ["red"], []]
        (solveSteps [⟨0, 4⟩]) = initialVials ∧
    allVialsComplete (applySteps
        [["red", "red", "red"], ["blue", "blue", "blue", "blue"],
          ["green", "green", "green", "green"],
          ["yellow", "yellow", "yellow", "yellow"], ["red"], []]
        (solveSteps [⟨0, 4⟩])) :=
  generateSolvablePuzzle_solution_solves [⟨0, 4⟩] _
    (ShuffleRun.cons (by decide) (by decide) (by decide) (by decide)
      (ShuffleRun.nil _))

end WaterSort.Gen
namespace WaterSort

/-- Every vial reference of the clone has a fresh address (at or above the
old heap bound) and stays below the new bound. -/
theorem cloneStateRef_fresh (h : Heap) (s : StateRef) :
    ∀ vr' ∈ (cloneStateRef h s).2.vials,
      h.length ≤ vr'.arr ∧ vr'.arr < (cloneStateRef h s).1.length := by
  intro vr' hvr'
  unfold cloneStateRef at hvr'
  simp only [] at hvr'
  obtain ⟨p, hp, rfl⟩ := List.mem_map.mp hvr'
  have hlt := List.fst_lt_of_mem_enum hp
  constructor
  · simp
  · unfold cloneStateRef
    simp only [List.length_append, List.length_map]
    omega

/-- Heap cells below the old bound are untouched by the clone. -/
theorem cloneStateRef_frame (h : Heap) (s : StateRef) {a : Nat}
    (ha : a < h.length) :
    (cloneStateRef h s).1.getD a [] = h.getD a [] := by
  unfold cloneStateRef
  simp only []
  exact List.getD_append _ _ _ _ ha

/-- C6, counterexample: the claim quantifies over every `Move`, but on a
move whose source index is out of range `applyMove` does not return a new
`GameState` at all — it throws a `TypeError` (`assertDefined`), here in the
heap model at a concrete one-vial state. -/
theorem applyMoveRef_out_of_range_counterexample :
    applyMoveRef [["red"]] ⟨[⟨0, 4⟩], 1, 0⟩ ⟨1, 0, 1⟩ =
      .error "Expected source vial at index 1." ∧
    ∀ p : Heap × StateRef,
      applyMoveRef [["red"]] ⟨[⟨0, 4⟩], 1, 0⟩ ⟨1, 0, 1⟩ ≠ .ok p :=
  ⟨rfl, fun p hp => by simp [applyMoveRef, cloneStateRef] at hp⟩

/-- C6, amended: whenever `applyMove` returns a state (both vial indices in
range — out-of-range moves throw instead, see the counterexample), then in
the heap model (clone via `Vial.clone`'s fresh array copies, then mutate
only the clone) the call leaves every segment array of the receiver
untouched — reading the receiver through the new heap yields exactly its
old contents — and the returned state's vials live at addresses disjoint
from all of the receiver's, so no mutation of the returned state can affect
the original; the returned addresses are all allocated. -/
theorem applyMoveRef_frame (h : Heap) (s : StateRef) (m : Move)
    (hwf : WFRef h s) {h' : Heap} {s' : StateRef}
    (happ : applyMoveRef h s m = .ok (h', s')) :
    derefState h' s = derefState h s ∧
    (∀ vr' ∈ s'.vials, ∀ vr ∈ s.vials, vr'.arr ≠ vr.arr) ∧
    (∀ vr' ∈ s'.vials, vr'.arr < h'.length) := by
  have hfresh := cloneStateRef_fresh h s
  unfold applyMoveRef at happ
  simp only [] at happ
  cases hsrc : (cloneStateRef h s).2.vials[m.sourceVialIndex]? with
  | none =>
    rw [hsrc] at happ
    exact absurd happ (by simp)
  | some srcRef =>
    rw [hsrc] at happ
    simp only [] at happ
    cases htgt : (cloneStateRef h s).2.vials[m.targetVialIndex]? with
    | none =>
      rw [htgt] at happ
      exact absurd happ (by simp)
    | some tgtRef =>
      rw [htgt] at happ
      simp only [] at happ
      have hsrcMem : srcRef ∈ (cloneStateRef h s).2.vials :=
        List.getElem?_mem hsrc
      have htgtMem : tgtRef ∈ (cloneStateRef h s).2.vials :=
        List.getElem?_mem htgt
      have hsrcFresh := hfresh srcRef hsrcMem
      have htgtFresh := hfresh tgtRef htgtMem
      cases htop : ((cloneStateRef h s).1.getD srcRef.arr []).getLast? with
      | none =>
        rw [htop] at happ
        have hh : (cloneStateRef h s).1 = h' ∧ (cloneStateRef h s).2 = s' := by
          have := Except.ok.inj happ
          exact ⟨congrArg Prod.fst this, congrArg Prod.snd this⟩
        obtain ⟨hh1, hh2⟩ := hh
        refine ⟨?_, ?_, ?_⟩
        · rw [← hh1]
          unfold derefState
          apply List.map_congr_left
          intro vr hvr
          exact cloneStateRef_frame h s (hwf vr hvr)
        · intro vr' hvr' vr hvr
          rw [← hh2] at hvr'
          have h1 := (hfresh vr' hvr').1
          have h2 := hwf vr hvr
          omega
        · intro vr' hvr'
          rw [← hh2] at hvr'
          rw [← hh1]
          exact (hfresh vr' hvr').2
      | some c =>
        rw [htop] at happ
        have hh := Except.ok.inj happ
        have hh1 := congrArg Prod.fst hh
        have hh2 := congrArg Prod.snd hh
        simp only [] at hh1 hh2
        refine ⟨?_, ?_, ?_⟩
        · rw [← hh1]
          unfold derefState
          apply List.map_congr_left
          intro vr hvr
          have ha : vr.arr < h.length := hwf vr hvr
          have hne1 : srcRef.arr ≠ vr.arr := by omega
          have hne2 : tgtRef.arr ≠ vr.arr := by omega
          rw [List.getD_eq_getElem?_getD, List.getElem?_set_ne hne2,
            List.getElem?_set_ne hne1, ← List.getD_eq_getElem?_getD]
          exact cloneStateRef_frame h s ha
        · intro vr' hvr' vr hvr
          rw [← hh2] at hvr'
          have h1 := (hfresh vr' hvr').1
          have h2 := hwf vr hvr
          omega
        · intro vr' hvr'
          rw [← hh2] at hvr'
          rw [← hh1]
          simp only [List.length_set]
          exact (hfresh vr' hvr').2

end WaterSort
namespace WaterSort

/-- C6, witness: pouring the red segment in the heap model; the receiver's
arrays (addresses 0 and 1) are untouched and the result lives at the fresh
addresses 2 and 3. -/
theorem applyMoveRef_frame_witness :
    derefState [["red"], [], [], ["red"]] (⟨[⟨0, 4⟩, ⟨1, 4⟩], 1, 1⟩ : StateRef) =
      derefState [["red"], []] (⟨[⟨0, 4⟩, ⟨1, 4⟩], 1, 1⟩ : StateRef) ∧
    (∀ vr' ∈ (⟨[⟨2, 4⟩, ⟨3, 4⟩], 1, 1⟩ : StateRef).vials,
      ∀ vr ∈ (⟨[⟨0, 4⟩, ⟨1, 4⟩], 1, 1⟩ : StateRef).vials, vr'.arr ≠ vr.arr) ∧
    (∀ vr' ∈ (⟨[⟨2, 4⟩, ⟨3, 4⟩], 1, 1⟩ : StateRef).vials,
      vr'.arr < ([["red"], [], [], ["red"]] : Heap).length) :=
  applyMoveRef_frame [["red"], []] ⟨[⟨0, 4⟩, ⟨1, 4⟩], 1, 1⟩ ⟨0, 1, 1⟩
    (by unfold WFRef; decide) rfl

end WaterSort
